import Mathlib

/-!
Verification of the mixture / exponential-family core of the `beer`
Bayesian speech-modeling toolkit.

The Python sources are embedded shallowly:
* numpy / torch vectors become `List ℚ` (exact algebra) or `List ℝ`
  (where `exp` / `log` are involved);
* matrices become `List (List _)` (row major, as numpy 2-D arrays);
* methods become pure functions of the object fields; methods that
  mutate the object return the updated record.
-/

namespace Beer

/-! ### Vector helpers (elementwise numpy semantics) -/

/-- Elementwise product of two vectors (`a * b` in numpy). -/
def vMul (a b : List ℚ) : List ℚ := List.zipWith (· * ·) a b

/-- Elementwise sum of two vectors (`a + b` in numpy). -/
def vAdd (a b : List ℚ) : List ℚ := List.zipWith (· + ·) a b

/-- Elementwise difference of two vectors (`a - b` in numpy). -/
def vSub (a b : List ℚ) : List ℚ := List.zipWith (· - ·) a b

/-- Scalar times vector (`c * v` in numpy). -/
def vSmul (c : ℚ) (v : List ℚ) : List ℚ := v.map (fun x => c * x)

/-! ### `beer/dists/normaldiag.py` (exact-arithmetic embedding)

`NormalDiagonalCovariance` stores standard parameters `mean` and
`diag_cov`; the functions below mirror the methods line by line. -/

/-- Embedding of `NormalDiagonalCovariance.natural_parameters`:
`diag_prec = 1 / diag_cov`; returns
`torch.cat([diag_prec * mean, -.5 * diag_prec])`. -/
def natural_parameters (mean diag_cov : List ℚ) : List ℚ :=
  let diag_prec := diag_cov.map (fun s => s⁻¹)
  vMul diag_prec mean ++ vSmul (-(1/2)) diag_prec

/-- Embedding of `NormalDiagonalCovarianceStdParams.from_natural_parameters`:
`dim = len(np) // 2`, `np1 = np[:dim]`, `np2 = np[dim:2*dim]`,
`diag_cov = 1 / (-2 * np2)`, `mean = diag_cov * np1`;
returns the pair `(mean, diag_cov)`. -/
def from_natural_parameters (natural_params : List ℚ) : List ℚ × List ℚ :=
  let dim := natural_params.length / 2
  let np1 := natural_params.take dim
  let np2 := (natural_params.drop dim).take dim
  let diag_cov := np2.map (fun x => (-2 * x)⁻¹)
  let mean := vMul diag_cov np1
  (mean, diag_cov)

/-- Embedding of `NormalFixedDiagonalCovarianceLikelihood.parameters_from_pdfvector`:
`pdfvec[:self.dim]`. -/
def parameters_from_pdfvector (dim : ℕ) (pdfvec : List ℚ) : List ℚ :=
  pdfvec.take dim

/-- Embedding of `NormalFixedDiagonalCovarianceLikelihood.pdfvectors_from_rvectors`
on a single row vector: `torch.cat([rvecs, rvecs**2], dim=-1)`. -/
def pdfvectors_from_rvectors (rvecs : List ℚ) : List ℚ :=
  rvecs ++ rvecs.map (fun x => x ^ 2)

/-! #### Helper lemmas -/

lemma vMul_length (a b : List ℚ) : (vMul a b).length = min a.length b.length :=
  List.length_zipWith _ a b

lemma natural_parameters_length (mean diag_cov : List ℚ)
    (h : mean.length = diag_cov.length) :
    (natural_parameters mean diag_cov).length = 2 * diag_cov.length := by
  simp [natural_parameters, vMul, vSmul, h]
  omega

/-- Cancellation at the heart of the C1 round trip: multiplying back by
the covariance undoes the multiplication by the precision. -/
lemma vMul_inv_cancel (dc me : List ℚ) (hlen : me.length = dc.length)
    (hnz : ∀ s ∈ dc, s ≠ 0) :
    vMul dc (vMul (dc.map (fun s => s⁻¹)) me) = me := by
  induction dc generalizing me with
  | nil => cases me <;> simp_all [vMul]
  | cons s tl ih =>
    cases me with
    | nil => simp at hlen
    | cons m mtl =>
      have hs : s ≠ 0 := hnz s (by simp)
      have htl : ∀ x ∈ tl, x ≠ 0 := fun x hx => hnz x (by simp [hx])
      have hlen' : mtl.length = tl.length := by simpa using hlen
      have hhead : s * (s⁻¹ * m) = m := by field_simp
      simpa [vMul, hhead] using ih mtl hlen' htl

/-- Recovering the covariance from the second natural-parameter block:
`(-2 * (-(1/2) * s⁻¹))⁻¹ = s` elementwise. -/
lemma map_half_prec_inv (dc : List ℚ) :
    ((dc.map (fun s => s⁻¹)).map (fun x => -(1/2) * x)).map (fun x => (-2 * x)⁻¹) = dc := by
  induction dc with
  | nil => rfl
  | cons s tl ih =>
    have hhead : ((-2 : ℚ) * (-(1/2) * s⁻¹))⁻¹ = s := by
      rw [show (-2 : ℚ) * (-(1/2) * s⁻¹) = s⁻¹ by ring, inv_inv]
    simp only [List.map_cons, hhead, List.cons.injEq]
    exact ⟨trivial, ih⟩

/-- C1: natural parameters of a positive diagonal covariance Normal,
fed back through `from_natural_parameters`, recover exactly the
original `(mean, diag_cov)` pair. -/
theorem natural_parameters_round_trip (mean diag_cov : List ℚ)
    (hlen : mean.length = diag_cov.length)
    (hpos : ∀ s ∈ diag_cov, 0 < s) :
    from_natural_parameters (natural_parameters mean diag_cov) = (mean, diag_cov) := by
  have hnz : ∀ s ∈ diag_cov, s ≠ 0 := fun s hs => ne_of_gt (hpos s hs)
  set A := vMul (diag_cov.map (fun s => s⁻¹)) mean with hA
  set B := vSmul (-(1/2)) (diag_cov.map (fun s => s⁻¹)) with hB
  have hAlen : A.length = diag_cov.length := by
    simp [hA, vMul, hlen]
  have hBlen : B.length = diag_cov.length := by
    simp [hB, vSmul]
  have hnp : natural_parameters mean diag_cov = A ++ B := rfl
  rw [hnp]
  have hdim : (A ++ B).length / 2 = diag_cov.length := by
    simp [hAlen, hBlen]
    omega
  simp only [from_natural_parameters, hdim]
  rw [List.take_left' hAlen, List.drop_left' hAlen,
      show B.take diag_cov.length = B by rw [← hBlen, List.take_length]]
  have hBmap : B.map (fun x => (-2 * x)⁻¹) = diag_cov := by
    rw [hB, vSmul]
    exact map_half_prec_inv diag_cov
  rw [hBmap]
  exact Prod.ext (vMul_inv_cancel diag_cov mean hlen hnz) rfl

/-- Witness for C1 at mean `[1, 2]` and covariance `[3, 4]`. -/
theorem natural_parameters_round_trip_witness :
    (([(1:ℚ), 2]).length = ([(3:ℚ), 4]).length ∧ ∀ s ∈ [(3:ℚ), 4], 0 < s) ∧
    from_natural_parameters (natural_parameters [(1:ℚ), 2] [3, 4]) = ([1, 2], [3, 4]) :=
  ⟨⟨by decide, by decide⟩,
    natural_parameters_round_trip [1, 2] [3, 4] (by decide) (by decide)⟩

/-- C9: concatenating a row vector with its squares and projecting back
onto the first `dim` coordinates recovers the row vector, so
`parameters_from_pdfvector` is a left inverse of
`pdfvectors_from_rvectors`. -/
theorem parameters_from_pdfvector_round_trip (dim : ℕ) (r : List ℚ)
    (h : r.length = dim) :
    parameters_from_pdfvector dim (pdfvectors_from_rvectors r) = r := by
  rw [parameters_from_pdfvector, pdfvectors_from_rvectors, ← h, List.take_left]

/-- Witness for C9 at `r = [1, 2, 3]`, `dim = 3`. -/
theorem parameters_from_pdfvector_round_trip_witness :
    ([(1:ℚ), 2, 3]).length = 3 ∧
    parameters_from_pdfvector 3 (pdfvectors_from_rvectors [(1:ℚ), 2, 3]) = [1, 2, 3] :=
  ⟨by decide, parameters_from_pdfvector_round_trip 3 [1, 2, 3] (by decide)⟩

/-! ### `beer/models/normal.py`: covariance-type dispatch

`Normal.create` normalizes the covariance tensor to a full matrix and
then looks the `cov_type` string up in the module-level `cov_types`
dict, turning a `KeyError` into a `ValueError`.  The tensor
normalization is irrelevant to the dispatch; the embedding keeps the
returned constructor as a tag for which concrete subclass is built. -/

/-- Tag for the three concrete `Normal` subclasses. -/
inductive NormalKind where
  | full
  | diagonal
  | isotropic
  deriving DecidableEq, Repr

/-- The `cov_types` dict mapping covariance-type names to constructors. -/
def cov_types : List (String × NormalKind) :=
  [("full", .full), ("diagonal", .diagonal), ("isotropic", .isotropic)]

/-- Dispatch step of `Normal.create`: `cov_types[cov_type](...)`, with a
`KeyError` re-raised as a `ValueError` naming the unknown covariance
type. -/
def Normal.create (cov_type : String) : Except String NormalKind :=
  match cov_types.lookup cov_type with
  | some kind => .ok kind
  | none => .error ("Unknown covariance type: \x22" ++ cov_type ++ "\x22")

/-- C7: any `cov_type` other than `"full"`, `"diagonal"`, `"isotropic"`
makes `Normal.create` raise a `ValueError`, and each of the three known
names yields the model of the corresponding covariance kind. -/
theorem normal_create_dispatch (s : String)
    (h : s ∉ ["full", "diagonal", "isotropic"]) :
    Normal.create s = .error ("Unknown covariance type: \x22" ++ s ++ "\x22")
    ∧ Normal.create "full" = .ok .full
    ∧ Normal.create "diagonal" = .ok .diagonal
    ∧ Normal.create "isotropic" = .ok .isotropic := by
  simp only [List.mem_cons, not_or] at h
  obtain ⟨h1, h2, h3, -⟩ := h
  refine ⟨?_, rfl, rfl, rfl⟩
  have e1 : (s == "full") = false := beq_eq_false_iff_ne.2 h1
  have e2 : (s == "diagonal") = false := beq_eq_false_iff_ne.2 h2
  have e3 : (s == "isotropic") = false := beq_eq_false_iff_ne.2 h3
  simp [Normal.create, cov_types, List.lookup, e1, e2, e3]

/-- Witness for C7 at the unknown covariance type `"sparse"`. -/
theorem normal_create_dispatch_witness :
    ("sparse" ∉ ["full", "diagonal", "isotropic"])
    ∧ (Normal.create "sparse"
        = .error ("Unknown covariance type: \x22sparse\x22")
      ∧ Normal.create "full" = .ok .full
      ∧ Normal.create "diagonal" = .ok .diagonal
      ∧ Normal.create "isotropic" = .ok .isotropic) :=
  ⟨by decide, normal_create_dispatch "sparse" (by decide)⟩

/-! ### `beer/cli/subcommands/shmm/mksphoneloop.py` -/

/-- Embedding of `init_weights_stats`: `counts = stats[:, -1].sum()`,
`ncomps = stats.shape[-1]`, `new_stats = zeros_like(stats)`,
`new_stats[:] = counts / (3 * ncomps)`, `new_stats[:, -1] = counts / 3`.
Rows are the matrix rows (`shape[-1]` is the column count); the guard
keeps the numpy shape-preserving semantics for empty rows. -/
def init_weights_stats (stats : List (List ℚ)) : List (List ℚ) :=
  let counts : ℚ := (stats.map (fun row => row.getLastD 0)).sum
  let ncomps : ℕ := (stats.headD []).length
  let new_row : List ℚ :=
    if ncomps = 0 then []
    else List.replicate (ncomps - 1) (counts / (3 * (ncomps : ℚ))) ++ [counts / 3]
  stats.map (fun _ => new_row)

/-- C6 as stated is false: for a weights-statistics matrix of a unit
with 3 Gaussian components plus the trailing bias column and total
accumulated count `C = 12`, the returned row is `[1, 1, 1, 4]`, which
sums to `7`, not to `C = 12`. -/
theorem init_weights_stats_not_row_normalized :
    init_weights_stats [[0, 0, 0, 12]] = [[1, 1, 1, 4]]
    ∧ ¬ (∀ r ∈ init_weights_stats [[(0:ℚ), 0, 0, 12]], r.sum = 12) := by
  have h : init_weights_stats [[(0:ℚ), 0, 0, 12]] = [[1, 1, 1, 4]] := by
    norm_num [init_weights_stats, List.replicate, List.getLastD]
  refine ⟨h, fun hall => ?_⟩
  have h2 := hall [1, 1, 1, 4] (by rw [h]; exact List.mem_singleton.2 rfl)
  norm_num [List.sum_cons] at h2

/-- C6 amended: every entry becomes `C / (3 * ncols)` except the last
column, which becomes `C / 3`; with 3 Gaussian components plus the bias
column (4 columns) every returned row is `[C/12, C/12, C/12, C/3]` and
sums to `7*C/12` — only the bias column follows the `C/3` convention. -/
theorem init_weights_stats_rows (stats : List (List ℚ)) (C : ℚ)
    (hrect : ∀ r ∈ stats, r.length = 4)
    (hne : stats ≠ [])
    (hC : (stats.map (fun row => row.getLastD 0)).sum = C) :
    init_weights_stats stats
      = stats.map (fun _ => [C/12, C/12, C/12, C/3])
    ∧ ∀ r ∈ init_weights_stats stats, r.sum = 7 * C / 12 := by
  obtain ⟨r0, tl, rfl⟩ : ∃ r0 tl, stats = r0 :: tl := by
    cases stats with
    | nil => exact absurd rfl hne
    | cons a l => exact ⟨a, l, rfl⟩
  have h0 : r0.length = 4 := hrect r0 (List.mem_cons_self r0 tl)
  have hrow : init_weights_stats (r0 :: tl)
      = (r0 :: tl).map (fun _ => [C/12, C/12, C/12, C/3]) := by
    simp only [init_weights_stats, List.headD_cons, h0, hC]
    norm_num [List.replicate]
  refine ⟨hrow, ?_⟩
  rw [hrow]
  intro r hr
  rw [List.mem_map] at hr
  obtain ⟨-, -, rfl⟩ := hr
  simp [List.sum_cons]
  ring

/-- Witness for the amended C6 at the single-row matrix
`[[0, 0, 0, 12]]` (count `C = 12`). -/
theorem init_weights_stats_rows_witness :
    ((∀ r ∈ [[(0:ℚ), 0, 0, 12]], r.length = 4)
      ∧ ([[(0:ℚ), 0, 0, 12]] : List (List ℚ)) ≠ []
      ∧ (([[(0:ℚ), 0, 0, 12]].map (fun row => row.getLastD 0)).sum = 12))
    ∧ (init_weights_stats [[(0:ℚ), 0, 0, 12]]
        = [[(0:ℚ), 0, 0, 12]].map (fun _ => [12/12, 12/12, 12/12, 12/3])
      ∧ ∀ r ∈ init_weights_stats [[(0:ℚ), 0, 0, 12]], r.sum = 7 * 12 / 12) :=
  ⟨⟨by decide, by decide, by norm_num [List.getLastD]⟩,
    init_weights_stats_rows [[0, 0, 0, 12]] 12 (by decide) (by decide)
      (by norm_num [List.getLastD])⟩

/-- A unit-group entry of the YAML configuration list. -/
structure GroupConf where
  group_name : String
  n_normal_per_state : ℕ
  topology : List (ℕ × ℕ)
  deriving DecidableEq, Repr

/-- The group-lookup loop of `mksphoneloop.main`: the `for ... else`
raises a `ValueError` naming the missing group when no entry has a
matching `group_name`. -/
def find_group (conf : List GroupConf) (unit_group : String) :
    Except String GroupConf :=
  match conf.find? (fun g => g.group_name == unit_group) with
  | some g => .ok g
  | none => .error ("No matching group \x22" ++ unit_group ++ "\x22")

/-- State count of `mksphoneloop.main`: `nstates = 0`, then
`nstates = max(nstates, end_id - 1)` over the topology arcs
(arcs are `(start_id, end_id)` pairs). -/
def compute_nstates (topology : List (ℕ × ℕ)) : ℕ :=
  topology.foldl (fun acc arc => max acc (arc.2 - 1)) 0

/-- The prefix of `mksphoneloop.main` up to the start of subspace
fitting: look up the unit group, derive `nstates` from its topology and
set `nunits = len(units_emissions) // nstates` (Python floor division,
which raises `ZeroDivisionError` when `nstates` is 0 — a degenerate
topology with no arc of `end_id` above 1). -/
def mksphoneloop_prepare (conf : List GroupConf) (unit_group : String)
    (nEmissions : ℕ) : Except String (ℕ × ℕ) :=
  match find_group conf unit_group with
  | .error e => .error e
  | .ok g =>
      let nstates := compute_nstates g.topology
      if nstates = 0 then
        .error "integer division or modulo by zero"
      else
        .ok (nEmissions / nstates, nstates)

/-- C8 as stated is false: with a matched group whose topology has 3
states per unit and a model set of 7 emission models (so
`nstates * nunits = 7` has no solution), `main` raises no error before
fitting — it silently floors `7 // 3 = 2` units. -/
theorem mksphoneloop_no_count_check :
    mksphoneloop_prepare [⟨"speech-unit", 3, [(0, 4)]⟩] "speech-unit" 7
      = .ok (2, 3)
    ∧ compute_nstates [(0, 4)] * 2 ≠ 7 := by
  refine ⟨rfl, ?_⟩
  have h : compute_nstates [(0, 4)] = 3 := rfl
  rw [h]
  omega

/-- C8 amended: no unit/state count consistency is checked before
subspace fitting; when the group is matched and its topology has at
least one state the tool always succeeds with
`nunits = nEmissions / nstates` (surplus models silently ignored); the
only errors raised in this phase are an unmatched unit-group name and a
`ZeroDivisionError` on a degenerate zero-state topology. -/
theorem mksphoneloop_prepare_cases (conf : List GroupConf) (g : String)
    (nEmissions : ℕ) :
    (∀ gc, conf.find? (fun c => c.group_name == g) = some gc →
        compute_nstates gc.topology ≠ 0 →
        mksphoneloop_prepare conf g nEmissions
          = .ok (nEmissions / compute_nstates gc.topology,
                 compute_nstates gc.topology))
    ∧ (∀ gc, conf.find? (fun c => c.group_name == g) = some gc →
        compute_nstates gc.topology = 0 →
        mksphoneloop_prepare conf g nEmissions
          = .error "integer division or modulo by zero")
    ∧ (conf.find? (fun c => c.group_name == g) = none →
        mksphoneloop_prepare conf g nEmissions
          = .error ("No matching group \x22" ++ g ++ "\x22")) := by
  refine ⟨?_, ?_, ?_⟩
  · intro gc hfind hns
    simp [mksphoneloop_prepare, find_group, hfind, hns]
  · intro gc hfind hns
    simp [mksphoneloop_prepare, find_group, hfind, hns]
  · intro hfind
    simp [mksphoneloop_prepare, find_group, hfind]

/-- Witness for the amended C8: a matched group with 3 states and 7
emission models yields `ok (2, 3)`; a matched group with an empty
topology hits the zero-division error; an unmatched group name errors. -/
theorem mksphoneloop_prepare_cases_witness :
    (([(⟨"speech-unit", 3, [(0, 4)]⟩ : GroupConf)].find?
        (fun c => c.group_name == "speech-unit")
      = some ⟨"speech-unit", 3, [(0, 4)]⟩)
      ∧ compute_nstates [(0, 4)] ≠ 0)
    ∧ mksphoneloop_prepare [⟨"speech-unit", 3, [(0, 4)]⟩] "speech-unit" 7
        = .ok (7 / compute_nstates [(0, 4)], compute_nstates [(0, 4)])
    ∧ (([(⟨"empty-unit", 3, []⟩ : GroupConf)].find?
        (fun c => c.group_name == "empty-unit")
      = some ⟨"empty-unit", 3, []⟩)
      ∧ compute_nstates ([] : List (ℕ × ℕ)) = 0)
    ∧ mksphoneloop_prepare [⟨"empty-unit", 3, []⟩] "empty-unit" 7
        = .error "integer division or modulo by zero"
    ∧ ([(⟨"speech-unit", 3, [(0, 4)]⟩ : GroupConf)].find?
        (fun c => c.group_name == "other") = none)
    ∧ mksphoneloop_prepare [⟨"speech-unit", 3, [(0, 4)]⟩] "other" 7
        = .error ("No matching group \x22other\x22") :=
  ⟨⟨rfl, by decide⟩,
   (mksphoneloop_prepare_cases [⟨"speech-unit", 3, [(0, 4)]⟩] "speech-unit" 7).1
     ⟨"speech-unit", 3, [(0, 4)]⟩ rfl (by decide),
   ⟨rfl, rfl⟩,
   (mksphoneloop_prepare_cases [⟨"empty-unit", 3, []⟩] "empty-unit" 7).2.1
     ⟨"empty-unit", 3, []⟩ rfl rfl,
   rfl,
   (mksphoneloop_prepare_cases [⟨"speech-unit", 3, [(0, 4)]⟩] "other" 7).2.2 rfl⟩

/-! ### Real-valued embedding

`exp` / `log` computations (`logsumexp`, responsibilities, log
densities) are embedded over `ℝ`. -/

/-- Dot product of two real vectors (`a @ b` in numpy / torch). -/
noncomputable def dotR (a b : List ℝ) : ℝ := (List.zipWith (· * ·) a b).sum

lemma dotR_nil : dotR [] [] = 0 := rfl

lemma dotR_cons (a b : ℝ) (l m : List ℝ) :
    dotR (a :: l) (b :: m) = a * b + dotR l m := by
  simp [dotR]

/-- Splitting a dot product of concatenations at matching lengths. -/
lemma dotR_append (a b c d : List ℝ) (h : a.length = c.length) :
    dotR (a ++ b) (c ++ d) = dotR a c + dotR b d := by
  induction a generalizing c with
  | nil =>
    cases c with
    | nil => simp [dotR]
    | cons _ _ => simp at h
  | cons x xs ih =>
    cases c with
    | nil => simp at h
    | cons y ys =>
      have h' : xs.length = ys.length := by simpa using h
      simp only [List.cons_append, dotR_cons, ih ys h']
      ring

/-- Embedding of `scipy.special.logsumexp` over one row. -/
noncomputable def logsumexp (v : List ℝ) : ℝ := Real.log ((v.map Real.exp).sum)

/-- Embedding of `Mixture.sufficient_statistics`:
`np.c_[self.components[0].sufficient_statistics(X), np.ones(X.shape[0])]`,
parametric in the statistics function of the component family. -/
noncomputable def mixture_sufficient_statistics (statsFn : List ℝ → List ℝ)
    (X : List (List ℝ)) : List (List ℝ) :=
  X.map (fun x => statsFn x ++ [1])

/-- One row of `T @ self._np_params_matrix.T`: the per-component
expected log-likelihoods of one statistics row. -/
noncomputable def per_component_exp_llh (npMatrix : List (List ℝ))
    (t : List ℝ) : List ℝ :=
  npMatrix.map (fun row => dotR t row)

/-- The responsibility matrix computed inside `Mixture.exp_llh`:
`resps = np.exp(per_component_exp_llh - logsumexp[:, None])`. -/
noncomputable def exp_llh_resps (npMatrix : List (List ℝ))
    (statsFn : List ℝ → List ℝ) (X : List (List ℝ)) : List (List ℝ) :=
  (mixture_sufficient_statistics statsFn X).map
    (fun t =>
      (per_component_exp_llh npMatrix t).map
        (fun w => Real.exp (w - logsumexp (per_component_exp_llh npMatrix t))))

/-- Softmax normalization: subtracting the log-sum-exp and
exponentiating yields entries summing to 1 on any nonempty row. -/
lemma exp_sub_logsumexp_sum (v : List ℝ) (hv : v ≠ []) :
    (v.map (fun w => Real.exp (w - logsumexp v))).sum = 1 := by
  have hS : 0 < (v.map Real.exp).sum := by
    apply List.sum_pos
    · intro a ha
      rw [List.mem_map] at ha
      obtain ⟨w, -, rfl⟩ := ha
      exact Real.exp_pos w
    · simpa using hv
  have hrw : ∀ w : ℝ, Real.exp (w - logsumexp v)
      = Real.exp w * ((v.map Real.exp).sum)⁻¹ := by
    intro w
    rw [logsumexp, Real.exp_sub, Real.exp_log hS, div_eq_mul_inv]
  calc (v.map (fun w => Real.exp (w - logsumexp v))).sum
      = (v.map (fun w => Real.exp w * ((v.map Real.exp).sum)⁻¹)).sum := by
        exact congrArg List.sum (List.map_congr_left (fun w _ => hrw w))
    _ = (v.map Real.exp).sum * ((v.map Real.exp).sum)⁻¹ :=
        List.sum_map_mul_right v Real.exp _
    _ = 1 := mul_inv_cancel₀ (ne_of_gt hS)

/-- C2: every row of the responsibility matrix computed inside
`Mixture.exp_llh` has non-negative entries and sums to 1 across the
components, for any mixture with at least one component and any
non-empty data matrix. -/
theorem exp_llh_responsibilities_normalized (npMatrix : List (List ℝ))
    (statsFn : List ℝ → List ℝ) (X : List (List ℝ))
    (hcomp : npMatrix ≠ []) (_hX : X ≠ []) :
    ∀ row ∈ exp_llh_resps npMatrix statsFn X,
      (∀ r ∈ row, 0 ≤ r) ∧ row.sum = 1 := by
  intro row hrow
  rw [exp_llh_resps, List.mem_map] at hrow
  obtain ⟨t, -, rfl⟩ := hrow
  constructor
  · intro r hr
    rw [List.mem_map] at hr
    obtain ⟨w, -, rfl⟩ := hr
    exact le_of_lt (Real.exp_pos _)
  · apply exp_sub_logsumexp_sum
    simpa [per_component_exp_llh] using hcomp

/-- Witness for C2: a one-component mixture on a one-point data set. -/
theorem exp_llh_responsibilities_normalized_witness :
    (([[(1:ℝ)]] : List (List ℝ)) ≠ [] ∧ ([[(0:ℝ)]] : List (List ℝ)) ≠ [])
    ∧ ∀ row ∈ exp_llh_resps [[(1:ℝ)]] (fun x => x) [[(0:ℝ)]],
        (∀ r ∈ row, 0 ≤ r) ∧ row.sum = 1 :=
  ⟨⟨by simp, by simp⟩,
    exp_llh_responsibilities_normalized [[(1:ℝ)]] (fun x => x) [[(0:ℝ)]]
      (by simp) (by simp)⟩

/-! ### `NormalDiagonalCovariance.log_norm` against the closed-form
log density (real-valued embedding of `beer/dists/normaldiag.py`) -/

/-- Real-valued `NormalDiagonalCovariance.natural_parameters`:
`torch.cat([diag_prec * mean, -.5 * diag_prec])`. -/
noncomputable def natural_parametersR (mean diag_cov : List ℝ) : List ℝ :=
  List.zipWith (· * ·) (diag_cov.map (fun s => s⁻¹)) mean
    ++ diag_cov.map (fun s => -(1/2) * s⁻¹)

/-- The sufficient statistics of one observation in
`NormalDiagonalCovariance.forward`: `torch.cat([data, data**2])`. -/
noncomputable def suff_stats_x (x : List ℝ) : List ℝ :=
  x ++ x.map (fun v => v ^ 2)

/-- Embedding of `NormalDiagonalCovariance.log_norm`:
`-.5 * (diag_prec * mean) @ mean + .5 * diag_prec.log().sum()
 - .5 * dim * log(2 * pi)` with `diag_prec = 1 / diag_cov` and
`dim = len(mean)`. -/
noncomputable def log_normR (mean diag_cov : List ℝ) : ℝ :=
  -(1/2) * dotR (List.zipWith (· * ·) (diag_cov.map (fun s => s⁻¹)) mean) mean
    + (1/2) * (((diag_cov.map (fun s => s⁻¹)).map Real.log).sum)
    + -(1/2) * (mean.length : ℝ) * Real.log (2 * Real.pi)

/-- The textbook log density of the diagonal-covariance Normal — the
reference semantics the spec compares against:
`sum_i (-(x_i - m_i)^2 / (2 s_i) - log(s_i)/2) - (dim/2) log(2 pi)`. -/
noncomputable def gauss_log_density (mean diag_cov x : List ℝ) : ℝ :=
  (List.zipWith
      (fun (xm : ℝ × ℝ) s => -((xm.1 - xm.2) ^ 2) / (2 * s) - (1/2) * Real.log s)
      (x.zip mean) diag_cov).sum
    + -(1/2) * (mean.length : ℝ) * Real.log (2 * Real.pi)

/-- Sum-part identity behind the corrected C4: the dot product of the
`(x, x²)` statistics with the natural parameters plus the non-constant
part of `log_norm` telescopes to the quadratic-plus-log-determinant
part of the true log density. -/
lemma gauss_core (x mean s : List ℝ)
    (h1 : x.length = mean.length) (h2 : mean.length = s.length)
    (hpos : ∀ a ∈ s, 0 < a) :
    dotR x (List.zipWith (· * ·) (s.map (fun v => v⁻¹)) mean)
      + dotR (x.map (fun v => v ^ 2)) (s.map (fun v => -(1/2) * v⁻¹))
      + (-(1/2) * dotR (List.zipWith (· * ·) (s.map (fun v => v⁻¹)) mean) mean
          + (1/2) * (((s.map (fun v => v⁻¹)).map Real.log).sum))
    = (List.zipWith
        (fun (xm : ℝ × ℝ) a => -((xm.1 - xm.2) ^ 2) / (2 * a) - (1/2) * Real.log a)
        (x.zip mean) s).sum := by
  induction x generalizing mean s with
  | nil =>
    have hm : mean = [] := List.length_eq_zero.1 (by simpa using h1.symm)
    have hs : s = [] := List.length_eq_zero.1 (by rw [← h2, hm]; rfl)
    subst hm hs
    simp [dotR]
  | cons x0 xt ih =>
    obtain ⟨m0, mt, rfl⟩ : ∃ m0 mt, mean = m0 :: mt := by
      cases mean with
      | nil => simp at h1
      | cons a l => exact ⟨a, l, rfl⟩
    obtain ⟨s0, st, rfl⟩ : ∃ s0 st, s = s0 :: st := by
      cases s with
      | nil => simp at h2
      | cons a l => exact ⟨a, l, rfl⟩
    have h1' : xt.length = mt.length := by simpa using h1
    have h2' : mt.length = st.length := by simpa using h2
    have hpos' : ∀ a ∈ st, 0 < a := fun a ha => hpos a (List.mem_cons_of_mem _ ha)
    have hs0 : s0 ≠ 0 := ne_of_gt (hpos s0 (List.mem_cons_self _ _))
    have ihx := ih mt st h1' h2' hpos'
    have hhead :
        x0 * (s0⁻¹ * m0) + x0 ^ 2 * (-(1/2) * s0⁻¹)
          + (-(1/2) * (s0⁻¹ * m0 * m0) + (1/2) * Real.log s0⁻¹)
        = -((x0 - m0) ^ 2) / (2 * s0) - (1/2) * Real.log s0 := by
      rw [Real.log_inv]
      have hq : x0 * (s0⁻¹ * m0) + x0 ^ 2 * (-(1/2) * s0⁻¹)
          + -(1/2) * (s0⁻¹ * m0 * m0) = -((x0 - m0) ^ 2) / (2 * s0) := by
        field_simp
        ring
      linarith [hq]
    simp only [List.map_cons, List.zipWith_cons_cons, List.zip_cons_cons,
      dotR_cons, List.sum_cons]
    linear_combination hhead + ihx

/-- C4 as stated is false: for the 1-dimensional standard Normal
(`mean = [0]`, `diag_cov = [1]`) at `x = [0]`, the statistics-dot
product minus `log_norm()` is `+log(2*pi)/2` while the true log density
is `-log(2*pi)/2`; `log_norm` as implemented must be *added*, not
subtracted. -/
theorem stats_dot_minus_log_norm_ne_density :
    dotR (suff_stats_x [0]) (natural_parametersR [0] [1]) - log_normR [0] [1]
      ≠ gauss_log_density [0] [1] [0] := by
  have hpi : (1:ℝ) < 2 * Real.pi := by nlinarith [Real.pi_gt_three]
  have hlog : 0 < Real.log (2 * Real.pi) := Real.log_pos hpi
  simp only [suff_stats_x, natural_parametersR, log_normR, gauss_log_density,
    dotR, List.map_cons, List.map_nil, List.zipWith_cons_cons,
    List.zip_cons_cons, List.zipWith_nil_right, List.zip_nil_right,
    List.cons_append, List.nil_append, List.sum_cons, List.sum_nil,
    List.length_cons, List.length_nil]
  norm_num
  intro h
  nlinarith [h, hlog]

/-- C4 amended: the statistics-dot product *plus* `log_norm()` equals
the true closed-form Gaussian log density (the implemented `log_norm`
is the negated log-partition together with the base measure). -/
theorem stats_dot_plus_log_norm_eq_density (mean diag_cov x : List ℝ)
    (h1 : x.length = mean.length) (h2 : mean.length = diag_cov.length)
    (hpos : ∀ a ∈ diag_cov, 0 < a) :
    dotR (suff_stats_x x) (natural_parametersR mean diag_cov)
      + log_normR mean diag_cov
    = gauss_log_density mean diag_cov x := by
  have hlen : x.length
      = (List.zipWith (· * ·) (diag_cov.map (fun s => s⁻¹)) mean).length := by
    simp [h1, h2.symm]
  have hsplit := dotR_append x (x.map (fun v => v ^ 2))
    (List.zipWith (· * ·) (diag_cov.map (fun s => s⁻¹)) mean)
    (diag_cov.map (fun s => -(1/2) * s⁻¹)) hlen
  have hcore := gauss_core x mean diag_cov h1 h2 hpos
  rw [suff_stats_x, natural_parametersR, hsplit, log_normR, gauss_log_density]
  linear_combination hcore

/-- Witness for the amended C4 at the 1-dimensional standard Normal
and observation `x = [0]`. -/
theorem stats_dot_plus_log_norm_eq_density_witness :
    (([(0:ℝ)]).length = ([(0:ℝ)]).length ∧ ([(0:ℝ)]).length = ([(1:ℝ)]).length
      ∧ ∀ a ∈ [(1:ℝ)], 0 < a)
    ∧ dotR (suff_stats_x [0]) (natural_parametersR [0] [1]) + log_normR [0] [1]
        = gauss_log_density [0] [1] [0] :=
  ⟨⟨rfl, rfl, by norm_num⟩,
    stats_dot_plus_log_norm_eq_density [0] [1] [0] rfl rfl (by norm_num)⟩

/-! ### `beer/models/mixture.py`: mixture state and updates

A component is its conjugate prior/posterior pair; grad-of-log-normalizer
functions live in `beer.priors` (outside the embedded sources), so they
are passed as parameters `g` (components) and `gw` (weights). -/

/-- A mixture component: prior and posterior natural parameters. -/
structure Component (α : Type) where
  prior_np : List α
  posterior_np : List α

/-- The state owned by `Mixture.__init__`: weights prior/posterior
natural parameters, the component list, and the cached
`_np_params_matrix`. -/
structure Mixture (α : Type) where
  prior_weights_np : List α
  posterior_weights_np : List α
  components : List (Component α)
  np_params_matrix : List (List α)

/-- Embedding of `Mixture._prepare`: `np.vstack` of the per-component
posterior `grad_lognorm()` rows with the weights `grad_lognorm()` appended
as the last column (`np.c_`). -/
def prepare (g gw : List ℚ → List ℚ) (comps : List (Component ℚ))
    (posterior_weights_np : List ℚ) : List (List ℚ) :=
  List.zipWith (fun c w => g c.posterior_np ++ [w])
    comps (gw posterior_weights_np)

/-- One natural-gradient posterior step:
`natural_grad = prior + scale * stat - post` and
`post += lrate * natural_grad`. -/
def upd_vec (prior post stat : List ℚ) (scale lrate : ℚ) : List ℚ :=
  vAdd post (vSmul lrate (vSub (vAdd prior (vSmul scale stat)) post))

/-- Embedding of `Mixture.natural_grad_update(acc_stats, scale, lrate)`:
applies `upd_vec` to every component posterior (with `comp_stats[i]`) and to
the weights posterior (with `weights_stats`); finally
`self._prepare()` rebuilds the cached matrix. -/
def natural_grad_update (g gw : List ℚ → List ℚ) (m : Mixture ℚ)
    (comp_stats : List (List ℚ)) (weights_stats : List ℚ)
    (scale lrate : ℚ) : Mixture ℚ :=
  let new_components := List.zipWith
    (fun (c : Component ℚ) stats =>
      { c with posterior_np := upd_vec c.prior_np c.posterior_np stats scale lrate })
    m.components comp_stats
  let new_weights := upd_vec m.prior_weights_np m.posterior_weights_np
    weights_stats scale lrate
  { m with
      components := new_components
      posterior_weights_np := new_weights
      np_params_matrix := prepare g gw new_components new_weights }

/-- The accessor `getD` commutes with elementwise `zipWith` inside the bounds. -/
lemma getD_zipWith (f : ℚ → ℚ → ℚ) (a b : List ℚ) (j : ℕ)
    (ha : j < a.length) (hb : j < b.length) :
    (List.zipWith f a b).getD j 0 = f (a.getD j 0) (b.getD j 0) := by
  induction a generalizing b j with
  | nil => simp at ha
  | cons x xs ih =>
    cases b with
    | nil => simp at hb
    | cons y ys =>
      cases j with
      | zero => simp
      | succ n =>
        simp only [List.zipWith_cons_cons, List.getD_cons_succ]
        exact ih ys n (by simpa using ha) (by simpa using hb)

/-- The accessor `getD` commutes with scalar multiplication (also out of bounds,
since `c * 0 = 0`). -/
lemma getD_vSmul (c : ℚ) (v : List ℚ) (j : ℕ) :
    (vSmul c v).getD j 0 = c * v.getD j 0 := by
  induction v generalizing j with
  | nil => simp [vSmul]
  | cons x xs ih =>
    cases j with
    | zero => simp [vSmul]
    | succ n => simpa [vSmul] using ih n

/-- Entrywise form of the natural-gradient posterior update. -/
lemma upd_getD (prior post stat : List ℚ) (scale lrate : ℚ) (j : ℕ)
    (h1 : j < prior.length) (h2 : j < post.length) (h3 : j < stat.length) :
    (upd_vec prior post stat scale lrate).getD j 0
      = post.getD j 0
        + lrate * (prior.getD j 0 + scale * stat.getD j 0 - post.getD j 0) := by
  have hsm : j < (vSmul scale stat).length := by simpa [vSmul] using h3
  have hadd : j < (vAdd prior (vSmul scale stat)).length := by
    simp only [vAdd, List.length_zipWith]
    omega
  have hsub : j < (vSub (vAdd prior (vSmul scale stat)) post).length := by
    simp only [vSub, List.length_zipWith]
    omega
  have hsm2 : j < (vSmul lrate (vSub (vAdd prior (vSmul scale stat)) post)).length := by
    simpa [vSmul] using hsub
  unfold upd_vec vAdd vSub
  unfold vAdd at hadd
  unfold vAdd vSub at hsub hsm2
  rw [getD_zipWith _ _ _ j h2 hsm2, getD_vSmul,
      getD_zipWith _ _ _ j hadd h2, getD_zipWith _ _ _ j h1 hsm,
      getD_vSmul]

/-- C3: `natural_grad_update` sets every entry of every component
posterior to `old + lrate * (prior + scale * comp_stats[i] - old)`,
sets every entry of the weights posterior to
`old + lrate * (prior + scale * weights_stats - old)`, and leaves the
cached matrix equal to `_prepare` recomputed from the updated
posteriors. -/
theorem natural_grad_update_spec (g gw : List ℚ → List ℚ) (m : Mixture ℚ)
    (comp_stats : List (List ℚ)) (weights_stats : List ℚ)
    (scale lrate : ℚ) :
    (∀ i (hi : i < m.components.length) (hi2 : i < comp_stats.length)
        (hi3 : i < (natural_grad_update g gw m comp_stats weights_stats
            scale lrate).components.length),
      ∀ j, j < (m.components[i]).prior_np.length →
        j < (m.components[i]).posterior_np.length →
        j < (comp_stats[i]).length →
        (((natural_grad_update g gw m comp_stats weights_stats scale
            lrate).components[i]).posterior_np).getD j 0
          = ((m.components[i]).posterior_np).getD j 0
            + lrate * (((m.components[i]).prior_np).getD j 0
                + scale * (comp_stats[i]).getD j 0
                - ((m.components[i]).posterior_np).getD j 0))
    ∧ (∀ j, j < m.prior_weights_np.length →
        j < m.posterior_weights_np.length → j < weights_stats.length →
        ((natural_grad_update g gw m comp_stats weights_stats scale
            lrate).posterior_weights_np).getD j 0
          = m.posterior_weights_np.getD j 0
            + lrate * (m.prior_weights_np.getD j 0
                + scale * weights_stats.getD j 0
                - m.posterior_weights_np.getD j 0))
    ∧ (natural_grad_update g gw m comp_stats weights_stats scale
          lrate).np_params_matrix
        = prepare g gw
            (natural_grad_update g gw m comp_stats weights_stats scale
              lrate).components
            (natural_grad_update g gw m comp_stats weights_stats scale
              lrate).posterior_weights_np := by
  refine ⟨?_, ?_, rfl⟩
  · intro i hi hi2 hi3 j hj1 hj2 hj3
    have hget : (natural_grad_update g gw m comp_stats weights_stats scale
        lrate).components[i]
        = { m.components[i] with
            posterior_np := upd_vec (m.components[i]).prior_np
              (m.components[i]).posterior_np comp_stats[i] scale lrate } := by
      simp only [natural_grad_update]
      exact List.getElem_zipWith
    rw [hget]
    exact upd_getD _ _ _ scale lrate j hj1 hj2 hj3
  · intro j hj1 hj2 hj3
    exact upd_getD _ _ _ scale lrate j hj1 hj2 hj3

/-- Witness for C3: a one-component, one-dimensional mixture with
`scale = 2`, `lrate = 1/2`. -/
theorem natural_grad_update_spec_witness :
    ((0 < ([(⟨[3], [4]⟩ : Component ℚ)]).length)
      ∧ 0 < ([[(5:ℚ)]]).length
      ∧ 0 < ([(3:ℚ)]).length)
    ∧ ((((natural_grad_update (fun v => v) (fun v => v)
            ⟨[1], [2], [⟨[3], [4]⟩], [[9, 9]]⟩ [[5]] [6] 2
            (1/2)).components.get ⟨0, by decide⟩).posterior_np).getD 0 0
        = (([(4:ℚ)]).getD 0 0)
          + (1/2) * ((([(3:ℚ)]).getD 0 0) + 2 * (([(5:ℚ)]).getD 0 0)
              - (([(4:ℚ)]).getD 0 0))) := by
  refine ⟨⟨by decide, by decide, by decide⟩, ?_⟩
  exact (natural_grad_update_spec (fun v => v) (fun v => v)
      ⟨[1], [2], [⟨[3], [4]⟩], [[9, 9]]⟩ [[5]] [6] 2 (1/2)).1
    0 (by decide) (by decide) (by decide) 0 (by decide) (by decide) (by decide)

/-! ### `Mixture.split` -/

/-- Embedding of `np.c_[v, v].ravel()`: each entry duplicated in place. -/
def ravel_pair (v : List ℚ) : List ℚ := v.flatMap (fun a => [a, a])

/-- Embedding of `Mixture.split()`: builds halved, interleaved weight prior/posterior
natural parameters, splits every component in two and chains them, and
returns a brand-new `Mixture` (whose constructor runs `_prepare`).
`compSplit` stands for the component class `split()` (outside the
embedded sources). Modelled from the spec: `comp.split()` duplicates
the component into two sub-components. -/
def Mixture.split (g gw : List ℚ → List ℚ)
    (compSplit : Component ℚ → List (Component ℚ)) (m : Mixture ℚ) : Mixture ℚ :=
  let prior_np := vSmul (1/2) (ravel_pair m.prior_weights_np)
  let post_np := vSmul (1/2) (ravel_pair m.posterior_weights_np)
  let new_components := (m.components.map compSplit).flatten
  { prior_weights_np := prior_np
    posterior_weights_np := post_np
    components := new_components
    np_params_matrix := prepare g gw new_components post_np }

/-- The method-call view of `split`: the body contains no assignment to
`self`, so the post-state of the receiver is the unchanged `m`. -/
def split_call (g gw : List ℚ → List ℚ)
    (compSplit : Component ℚ → List (Component ℚ)) (m : Mixture ℚ) :
    Mixture ℚ × Mixture ℚ :=
  (Mixture.split g gw compSplit m, m)

lemma ravel_pair_getD_even (v : List ℚ) (i : ℕ) :
    (ravel_pair v).getD (2 * i) 0 = v.getD i 0 := by
  induction v generalizing i with
  | nil => simp [ravel_pair]
  | cons a t ih =>
    cases i with
    | zero => simp [ravel_pair]
    | succ n =>
      have h2 : 2 * (n + 1) = (2 * n) + 1 + 1 := by ring
      simp only [ravel_pair, List.flatMap_cons, List.cons_append,
        List.nil_append, h2, List.getD_cons_succ]
      exact ih n

lemma ravel_pair_getD_odd (v : List ℚ) (i : ℕ) :
    (ravel_pair v).getD (2 * i + 1) 0 = v.getD i 0 := by
  induction v generalizing i with
  | nil => simp [ravel_pair]
  | cons a t ih =>
    cases i with
    | zero => simp [ravel_pair]
    | succ n =>
      have h2 : 2 * (n + 1) + 1 = (2 * n + 1) + 1 + 1 := by ring
      simp only [ravel_pair, List.flatMap_cons, List.cons_append,
        List.nil_append, h2, List.getD_cons_succ]
      exact ih n

lemma ravel_pair_sum (v : List ℚ) : (ravel_pair v).sum = 2 * v.sum := by
  induction v with
  | nil => simp [ravel_pair]
  | cons a t ih =>
    simp only [ravel_pair, List.flatMap_cons, List.cons_append,
      List.nil_append, List.sum_cons] at *
    rw [ih]
    ring

lemma vSmul_sum (c : ℚ) (v : List ℚ) : (vSmul c v).sum = c * v.sum := by
  induction v with
  | nil => simp [vSmul]
  | cons a t ih =>
    simp only [vSmul, List.map_cons, List.sum_cons] at *
    rw [ih]
    ring

lemma flatten_map_length_two {α β : Type} (f : α → List β) (l : List α)
    (h2 : ∀ c, (f c).length = 2) :
    ((l.map f).flatten).length = 2 * l.length := by
  induction l with
  | nil => simp
  | cons a t ih =>
    simp only [List.map_cons, List.flatten_cons, List.length_append,
      List.length_cons, ih, h2 a]
    ring

/-- C5: `split()` returns a mixture with exactly `2 * n` components;
each original weight-prior natural parameter appears halved at the two
duplicated positions, so the total weight-prior mass is preserved; and
the receiver is left unchanged. -/
theorem split_spec (g gw : List ℚ → List ℚ)
    (compSplit : Component ℚ → List (Component ℚ)) (m : Mixture ℚ)
    (h2 : ∀ c, (compSplit c).length = 2) :
    (split_call g gw compSplit m).2 = m
    ∧ (split_call g gw compSplit m).1.components.length
        = 2 * m.components.length
    ∧ (∀ i : ℕ,
        ((split_call g gw compSplit m).1.prior_weights_np).getD (2 * i) 0
          = (1/2) * m.prior_weights_np.getD i 0
        ∧ ((split_call g gw compSplit m).1.prior_weights_np).getD (2 * i + 1) 0
          = (1/2) * m.prior_weights_np.getD i 0)
    ∧ ((split_call g gw compSplit m).1.prior_weights_np).sum
        = m.prior_weights_np.sum := by
  refine ⟨rfl, ?_, ?_, ?_⟩
  · exact flatten_map_length_two compSplit m.components h2
  · intro i
    constructor
    · rw [show (split_call g gw compSplit m).1.prior_weights_np
          = vSmul (1/2) (ravel_pair m.prior_weights_np) from rfl,
        getD_vSmul, ravel_pair_getD_even]
    · rw [show (split_call g gw compSplit m).1.prior_weights_np
          = vSmul (1/2) (ravel_pair m.prior_weights_np) from rfl,
        getD_vSmul, ravel_pair_getD_odd]
  · rw [show (split_call g gw compSplit m).1.prior_weights_np
        = vSmul (1/2) (ravel_pair m.prior_weights_np) from rfl,
      vSmul_sum, ravel_pair_sum]
    ring

/-- Witness for C5: a one-component mixture with weight priors `[1, 2]`
and the spec-modelled duplicating component split. -/
theorem split_spec_witness :
    (∀ c : Component ℚ, ([c, c]).length = 2)
    ∧ (split_call (fun v => v) (fun v => v) (fun c => [c, c])
        ⟨[1, 2], [3, 4], [⟨[0], [0]⟩], [[5]]⟩).2
      = (⟨[1, 2], [3, 4], [⟨[0], [0]⟩], [[5]]⟩ : Mixture ℚ)
    ∧ (split_call (fun v => v) (fun v => v) (fun c => [c, c])
        (⟨[1, 2], [3, 4], [⟨[0], [0]⟩], [[5]]⟩ : Mixture ℚ)).1.components.length
      = 2 * ([(⟨[0], [0]⟩ : Component ℚ)]).length
    ∧ ((split_call (fun v => v) (fun v => v) (fun c => [c, c])
        (⟨[1, 2], [3, 4], [⟨[0], [0]⟩], [[5]]⟩ : Mixture ℚ)).1.prior_weights_np).getD
          (2 * 0) 0
      = (1/2) * (([(1:ℚ), 2]).getD 0 0)
    ∧ ((split_call (fun v => v) (fun v => v) (fun c => [c, c])
        (⟨[1, 2], [3, 4], [⟨[0], [0]⟩], [[5]]⟩ : Mixture ℚ)).1.prior_weights_np).getD
          (2 * 0 + 1) 0
      = (1/2) * (([(1:ℚ), 2]).getD 0 0)
    ∧ ((split_call (fun v => v) (fun v => v) (fun c => [c, c])
        (⟨[1, 2], [3, 4], [⟨[0], [0]⟩], [[5]]⟩ : Mixture ℚ)).1.prior_weights_np).sum
      = ([(1:ℚ), 2]).sum := by
  have h2 : ∀ c : Component ℚ, ((fun c => [c, c]) c).length = 2 := fun c => rfl
  have T := split_spec (fun v => v) (fun v => v) (fun c => [c, c])
    ⟨[1, 2], [3, 4], [⟨[0], [0]⟩], [[5]]⟩ h2
  exact ⟨h2, T.1, T.2.1, (T.2.2.1 0).1, (T.2.2.1 0).2, T.2.2.2⟩

/-! ### `Mixture.exp_llh` is read-only (real-valued state) -/

/-- Embedding of `Mixture.exp_llh(X, accumulate=...)` in full:
`T = self.sufficient_statistics(X)`;
`per_component_exp_llh = T @ self._np_params_matrix.T`;
`exp_llh = logsumexp(per_component_exp_llh, axis=1)`;
`resps = np.exp(per_component_exp_llh - exp_llh[:, None])`;
`exp_llh -= .5 * X.shape[1] * np.log(2 * np.pi)`;
`acc_stats = resps.T @ T[:, :-1], resps.sum(axis=0)` when accumulating.
Every statement reads `self`; none assigns to it, so the returned
post-state of the receiver is the unchanged `m`. -/
noncomputable def exp_llh_run (statsFn : List ℝ → List ℝ) (m : Mixture ℝ)
    (X : List (List ℝ)) (accumulate : Bool) :
    (List ℝ × Option (List (List ℝ) × List ℝ)) × Mixture ℝ :=
  let T := mixture_sufficient_statistics statsFn X
  let per_component := T.map (fun t => per_component_exp_llh m.np_params_matrix t)
  let lse := per_component.map logsumexp
  let resps := per_component.map
    (fun v => v.map (fun w => Real.exp (w - logsumexp v)))
  let exp_llh := lse.map
    (fun l => l - (1/2) * ((X.headD []).length : ℝ) * Real.log (2 * Real.pi))
  let acc_stats :=
    if accumulate then
      some ((resps.transpose).map
              (fun col => ((T.map (fun t => t.dropLast)).transpose).map
                (fun tc => dotR col tc)),
            (resps.transpose).map List.sum)
    else none
  ((exp_llh, acc_stats), m)

/-- C10: `exp_llh` leaves the mixture state — component posteriors,
weights prior/posterior, and the cached expected-natural-parameter
matrix — unchanged, whether or not statistics are accumulated. -/
theorem exp_llh_preserves_state (statsFn : List ℝ → List ℝ) (m : Mixture ℝ)
    (X : List (List ℝ)) (accumulate : Bool) :
    (exp_llh_run statsFn m X accumulate).2 = m := rfl

end Beer
